import Mathlib

/-!
Verification development for the task-execution substrate of this repository:
a resizable worker thread pool (`ext::thread_pool`) with delayed-task bridges,
and a single-threaded timer scheduler (`ext::threaded_scheduler`).

The C++ sources are shallowly embedded as pure Lean functions over explicit
state records.  Mutex acquisition/release, condition-variable notification,
thread joins and the user-visible task callbacks (`task_execute`,
`task_abandone`, `task_release`) are recorded in an event trace, so that
lock-discipline properties ("callback runs outside the engine lock") become
decidable statements about traces.  A condition-variable wait that releases
and reacquires the mutex is modelled by an `unlock`/`lock` pair.  Concurrency
enters only through `thread_pool::clear`, whose wait on `delayed_count == 0`
lets the already-claimed bridge continuations run; their interleaving is
modelled by an explicit `order` parameter ranging over all permutations of
those bridges.
-/

set_option maxRecDepth 8192

/-- Observable events emitted by the engines while they run.  `lock`/`unlock`
are acquisitions and releases of the engine's single mutex;
`execT`/`abandonT`/`releaseT` are the user-visible task callbacks
(`task_execute`/`task_abandone`/`task_release`), identified by task id;
`promote t` marks a delayed task being pushed into the ready FIFO by its
bridge continuation; `releaseB` is a bridge dropping its self-reference;
`stopReq`/`joinW` are per-worker stop requests and joins; `joinThread` is the
scheduler joining its single thread. -/
inductive Ev : Type where
  | lock : Ev
  | unlock : Ev
  | notify : Ev
  | broadcast : Ev
  | execT : Nat → Ev
  | abandonT : Nat → Ev
  | releaseT : Nat → Ev
  | promote : Nat → Ev
  | releaseB : Nat → Ev
  | stopReq : Nat → Ev
  | joinW : Nat → Ev
  | joinThread : Ev
  deriving DecidableEq

/-- Number of occurrences of an event in a trace. -/
def countEv (e : Ev) : List Ev → Nat
  | [] => 0
  | x :: tr => (if x = e then 1 else 0) + countEv e tr

/-- Number of occurrences of a value in a list of task (or worker) ids. -/
def countNat (x : Nat) : List Nat → Nat
  | [] => 0
  | y :: l => (if y = x then 1 else 0) + countNat x l

/-- Lock depth after processing one event, starting from depth `d`. -/
def stepDepth (d : Nat) : Ev → Nat
  | Ev.lock => d + 1
  | Ev.unlock => d - 1
  | _ => d

/-- Lock depth after a whole trace, starting from depth `d`. -/
def depthAfter (d : Nat) (tr : List Ev) : Nat := tr.foldl stepDepth d

/-- Check a lock discipline over a trace: at every `execT` event the current
lock depth must satisfy `p`, and at every `abandonT t` it must satisfy `q`
applied to the depth and the task id `t`. -/
def checkCalls (p : Nat → Bool) (q : Nat → Nat → Bool) : Nat → List Ev → Bool
  | _, [] => true
  | d, e :: tr =>
      (match e with
       | Ev.execT _ => p d
       | Ev.abandonT t => q d t
       | _ => true) && checkCalls p q (stepDepth d e) tr

/-- Does the trace contain a `notify` event? -/
def hasNotify (tr : List Ev) : Bool := tr.any (fun e => e == Ev.notify)

/-- Every `notify` event in the trace happens at positive lock depth
(starting from depth `d`). -/
def notifiesUnderLock : Nat → List Ev → Bool
  | _, [] => true
  | d, e :: tr =>
      (match e with
       | Ev.notify => decide (0 < d)
       | _ => true) && notifiesUnderLock (stepDepth d e) tr

/-- The trace contains the adjacent pair `[abandonT t, releaseT t]`:
the task was abandoned and then immediately released. -/
def abandonThenRelease (t : Nat) : List Ev → Bool
  | Ev.abandonT x :: Ev.releaseT y :: tr =>
      (x == t && y == t) || abandonThenRelease t (Ev.releaseT y :: tr)
  | _ :: tr => abandonThenRelease t tr
  | [] => false

/-- The last three events of the trace are `unlock`, `notify`, `joinThread`. -/
def shutdownTail (tr : List Ev) : Bool :=
  match tr.reverse with
  | Ev.joinThread :: Ev.notify :: Ev.unlock :: _ => true
  | _ => false

/-! ## Threaded scheduler (`threaded_scheduler.cpp`) -/

/-- A scheduler entry: a task id together with its absolute deadline
(`time_point`, modelled as the duration count of the steady clock). -/
structure SchedTask : Type where
  tid : Nat
  point : Nat
  deriving DecidableEq

/-- Scheduler state: the pending queue (`m_queue`, a priority queue modelled
as the multiset of its elements) and the `m_stopped` flag. -/
structure SchedState : Type where
  queue : List SchedTask
  stopped : Bool
  deriving DecidableEq

/-- Embeds `threaded_scheduler::entry_comparer::operator()`:
`t1->point > t2->point`.  `std::priority_queue` with this comparer keeps the
entry with the smallest `point` on top. -/
def entry_comparer (t1 t2 : SchedTask) : Bool := decide (t2.point < t1.point)

/-- The element `std::priority_queue::top()` yields under `entry_comparer`:
an entry with minimal `point` (ties broken deterministically: the first
minimal entry of the list; the C++ heap breaks ties arbitrarily). -/
def findMin : List SchedTask → Option SchedTask
  | [] => none
  | t :: ts => some (ts.foldl (fun a x => if x.point < a.point then x else a) t)

/-- Embeds `max_timepoint()`:
`steady_clock::duration::max().count() / 2` where the duration
representation is a signed 64-bit integer, so `max().count() = 2^63 - 1`
and the sentinel is its C++ (truncating, here exact floor) half. -/
def max_timepoint : Nat := (2 ^ 63 - 1) / 2

/-- Embeds `threaded_scheduler::next_in`: the wait deadline the scheduler
thread uses — the top entry's deadline, or `max_timepoint()` when the queue
is empty. -/
def next_in (q : List SchedTask) : Nat :=
  match findMin q with
  | none => max_timepoint
  | some m => m.point

/-- Embeds `threaded_scheduler::run_passed_events`, with explicit fuel (the
wrapper passes `q.length`, which the `erase` recursion never exhausts).
Returns the remaining queue, the executed entries in execution order, and the
event trace.  Each loop iteration takes the lock, inspects the top, and pops
and executes it outside the lock iff `¬ (now < top.point)`. -/
def run_passed_go (now : Nat) : Nat → List SchedTask →
    List SchedTask × List SchedTask × List Ev
  | 0, q => (q, [], [Ev.lock, Ev.unlock])
  | fuel + 1, q =>
      match findMin q with
      | none => (q, [], [Ev.lock, Ev.unlock])
      | some m =>
          if now < m.point then (q, [], [Ev.lock, Ev.unlock])
          else
            let r := run_passed_go now fuel (q.erase m)
            (r.1, m :: r.2.1, [Ev.lock, Ev.unlock, Ev.execT m.tid] ++ r.2.2)

/-- Embeds `threaded_scheduler::run_passed_events` (wrapper fixing the fuel). -/
def run_passed_events (now : Nat) (q : List SchedTask) :
    List SchedTask × List SchedTask × List Ev :=
  run_passed_go now q.length q

/-- Abandon-and-pop loop over the heap in top-first (ascending deadline)
order, shared by `threaded_scheduler::clear` and the destructor. -/
def drainQueue : Nat → List SchedTask → List Ev
  | 0, _ => []
  | fuel + 1, q =>
      match findMin q with
      | none => []
      | some m => Ev.abandonT m.tid :: drainQueue fuel (q.erase m)

/-- Embeds `threaded_scheduler::clear`: move the queue out under the lock,
abandon every entry outside the lock, then notify. -/
def threaded_scheduler.clear (st : SchedState) : SchedState × List Ev :=
  ({ st with queue := [] },
   [Ev.lock, Ev.unlock] ++ drainQueue st.queue.length st.queue ++ [Ev.notify])

/-- Embeds `threaded_scheduler::~threaded_scheduler`: under the lock set
`m_stopped` and abandon every queue entry; then notify and join the
scheduler thread. -/
def threaded_scheduler.dtor (st : SchedState) : SchedState × List Ev :=
  ({ queue := [], stopped := true },
   [Ev.lock] ++ drainQueue st.queue.length st.queue
     ++ [Ev.unlock, Ev.notify, Ev.joinThread])

/-- Embeds one iteration of `threaded_scheduler::thread_func`:
`run_passed_events()`, then take the lock and wait until `next_in`
(the wait releasing the lock is the final `unlock`). -/
def threaded_scheduler.iter (now : Nat) (st : SchedState) :
    SchedState × List Ev :=
  let r := run_passed_events now st.queue
  ({ st with queue := r.1 }, r.2.2 ++ [Ev.lock, Ev.unlock])

/-! ## Worker thread pool (`thread_pool.cpp`) -/

/-- A worker handle: its id, the atomic stop flag (`m_stop_request`), and
whether its thread has already finished (its completion future is ready). -/
structure Worker : Type where
  wid : Nat
  stopRequested : Bool
  finished : Bool
  deriving DecidableEq

/-- A delayed-task bridge (`thread_pool::delayed_task_continuation`):
its identity, the `marked` one-shot CAS latch, and the owned task. -/
structure Bridge : Type where
  bid : Nat
  marked : Bool
  task : Nat
  deriving DecidableEq

/-- Worker-pool state: `m_workers` (handles, stopping suffix of length
`m_pending` in well-formed states), `m_pending`, the ready FIFO `m_tasks`
(front at the head), the delayed-bridge list `m_delayed`, and
`m_delayed_count`. -/
structure PoolState : Type where
  workers : List Worker
  pending : Nat
  tasks : List Nat
  delayed : List Bridge
  delayedCount : Nat
  deriving DecidableEq

/-- The future returned by `set_nworkers`: either `make_ready_future()` or
`when_all` over the completion futures of the listed workers (composed with
the `.then` adapter, which preserves readiness). -/
inductive Fut : Type where
  | ready : Fut
  | whenAll : List Nat → Fut
  deriving DecidableEq

/-- Embeds `is_finished(wptr)`: the worker's completion future is ready. -/
def is_finished (w : Worker) : Bool := w.finished

/-- Embeds `thread_pool::join_worker`: joins the thread and returns `true`
iff the worker has finished. -/
def join_worker (w : Worker) : Bool := is_finished w

/-- Embeds `thread_pool::get_nworkers`: the source returns
`static_cast<unsigned>(m_pending)` under the lock. -/
def thread_pool.get_nworkers (st : PoolState) : Nat := st.pending

/-- A default-constructed (null) `worker_ptr` slot left by
`std::vector::resize` / moved-from slots. -/
def nullWorker : Worker := ⟨0, false, false⟩

/-- A freshly constructed worker (`ext::make_intrusive<worker>(this)`),
identified by a caller-supplied id, with its thread started: not stopped,
not finished. -/
def mkWorker (i : Nat) : Worker := ⟨i, false, false⟩

/-- Embeds `worker::stop_request()`: relaxed atomic exchange of the stop
flag to `true` (the previous value, which the source discards, is dropped). -/
def setStop (w : Worker) : Worker := { w with stopRequested := true }

/-- Unsigned 64-bit subtraction (`std::size_t` arithmetic): the C++
expression `old_size - m_pending` wraps modulo `2^64`. -/
def u64sub (a b : Nat) : Nat := (2 ^ 64 + a % 2 ^ 64 - b % 2 ^ 64) % 2 ^ 64

/-- Embeds `thread_pool::set_nworkers(n)`.  `fresh` supplies the ids of
workers the growth branch constructs.  Mirrors the source:
an immediate ready future when `n == m_pending`; the growth branch
(`n > old_size - m_pending`, computed in `size_t` arithmetic) compacts the
stopping suffix with `remove_if`/`join_worker`, sets
`m_pending = last - first` (the number of elements `remove_if` removed),
resizes to `n + m_pending`, moves `m_pending` slots from `begin + old_size`
to `end - m_pending`, and fills `[begin + old_size, end - m_pending)` with
new workers; the shrink branch stops the workers in
`[begin + n, end - m_pending)`, does `m_pending += old_size - n`, and
returns `when_all` over the stopped workers' futures.  Where the C++ range
arithmetic would leave the valid-index domain, the total list operations
(`take`/`drop`) yield their clipped values. -/
def thread_pool.set_nworkers (st : PoolState) (n : Nat) (fresh : List Nat) :
    PoolState × Fut :=
  if n = st.pending then (st, Fut.ready)
  else
    let old_size := st.workers.length
    if u64sub old_size st.pending < n then
      let keepLen := old_size - st.pending
      let kept := (st.workers.drop keepLen).filter (fun w => !(join_worker w))
      let pending2 := st.pending - kept.length
      let va := st.workers.take keepLen ++ kept ++ List.replicate pending2 nullWorker
      let vb := va.take (n + pending2)
                  ++ List.replicate (n + pending2 - va.length) nullWorker
      let vc := vb.take n ++ (vb.drop old_size).take pending2
                  ++ vb.drop (n + pending2)
      let vd := vc.take old_size ++ (fresh.take (n - old_size)).map mkWorker
                  ++ vc.drop n
      ({ st with workers := vd, pending := pending2 }, Fut.ready)
    else
      let stopTo := old_size - st.pending
      let stopped := (st.workers.drop n).take (stopTo - n)
      let workers2 := st.workers.take n ++ stopped.map setStop
                        ++ st.workers.drop stopTo
      ({ st with workers := workers2, pending := st.pending + (old_size - n) },
       Fut.whenAll (stopped.map Worker.wid))

/-- The empty pool state the `thread_pool(unsigned)` constructor starts
from; the constructor then calls `set_nworkers`. -/
def thread_pool.init : PoolState := ⟨[], 0, [], [], 0⟩

/-- Embeds the `thread_pool(unsigned nworkers)` constructor:
`set_nworkers(nworkers)` on the empty state. -/
def thread_pool.ctor (n : Nat) (fresh : List Nat) : PoolState :=
  (thread_pool.set_nworkers thread_pool.init n fresh).1

/-- Embeds the critical section of
`thread_pool::delayed_task_continuation::continuate` after a successful
claim of the `marked` latch: under the pool mutex, unlink the bridge from
`m_delayed` (the intrusive-list `erase` of this node; bridges are distinct
objects, modelled by filtering out its id), push the owned task at the back
of `m_tasks`, evaluate `delayed_count == 0 || --delayed_count == 0` and
notify the event under the lock if it holds; after unlocking, drop the
bridge's self-reference. -/
def thread_pool.continuateBody (st : PoolState) (b : Bridge) :
    PoolState × List Ev :=
  let doNotify := st.delayedCount == 0 || st.delayedCount - 1 == 0
  ({ st with delayed := st.delayed.filter (fun x => !(x.bid == b.bid)),
             tasks := st.tasks ++ [b.task],
             delayedCount := if st.delayedCount = 0 then 0
                             else st.delayedCount - 1 },
   [Ev.lock, Ev.promote b.task]
     ++ (if doNotify then [Ev.notify] else [])
     ++ [Ev.unlock, Ev.releaseB b.bid])

/-- Embeds `thread_pool::delayed_task_continuation::continuate`: first the
compare-and-set of the `marked` latch from 0 to 1; if the latch was already
set (the pool claimed the bridge in `clear()`/destruction) return with no
effect, otherwise run the critical section. -/
def thread_pool.continuate (st : PoolState) (b : Bridge) :
    PoolState × List Ev :=
  if b.marked then (st, [])
  else thread_pool.continuateBody st b

/-- Runs the pending bridge continuations in the given order while
`thread_pool::clear` waits on `delayed_count == 0` (each continuation has
already won its CAS before `clear` scanned the list, which is why `clear`
left it in `m_delayed`). -/
def thread_pool.runConts : PoolState → List Bridge → PoolState × List Ev
  | st, [] => (st, [])
  | st, b :: rest =>
      let r1 := thread_pool.continuateBody st b
      let r2 := thread_pool.runConts r1.1 rest
      (r2.1, r1.2 ++ r2.2)

/-- Embeds `thread_pool::clear`.  Under the lock it scans `m_delayed`: a
bridge whose latch it claims (`mark_marked()` succeeds, i.e. the bridge was
unmarked) is erased, its task abandoned (`delayed_task_continuation::
abandone`, i.e. `m_task->task_abandone()`) and the bridge released; a bridge
already claimed by its firing timer is counted into `m_delayed_count` and
left in place.  It then waits on the event until `delayed_count == 0`
(modelled by running the surviving continuations, in an arbitrary
interleaving given by `order`, between the wait's release and reacquisition
of the mutex; the wait does not release the mutex when the count is already
zero).  Finally it swaps `m_tasks` out and, outside the lock, abandons and
releases every task in the swapped list.  The phases below are named
definitions; `thread_pool.clear` assembles them.  This first one is the
event trace of the scan: per unmarked bridge, its task's abandon and the
bridge release, in list order. -/
def thread_pool.clearScanEv (st : PoolState) : List Ev :=
  st.delayed.flatMap (fun b =>
    if b.marked then [] else [Ev.abandonT b.task, Ev.releaseB b.bid])

/-- Bridges the scan of `thread_pool::clear` leaves in `m_delayed`: those
whose latch the firing timer already claimed (`mark_marked()` fails). -/
def thread_pool.survivors (st : PoolState) : List Bridge :=
  st.delayed.filter (fun b => b.marked)

/-- Pool state after the scan of `thread_pool::clear`: the claimed bridges
are erased (tasks abandoned, bridges released) and `m_delayed_count` is
incremented once per surviving bridge. -/
def thread_pool.clearScanned (st : PoolState) : PoolState :=
  { st with delayed := thread_pool.survivors st,
            delayedCount := st.delayedCount
                              + (thread_pool.survivors st).length }

/-- The wait of `thread_pool::clear` on `delayed_count == 0`: when the count
is already zero the predicated wait returns without releasing the mutex;
otherwise the mutex is released, the surviving continuations run (in the
interleaving `order`), and the wait reacquires the mutex once woken with the
count at zero. -/
def thread_pool.clearWait (st1 : PoolState) (order : List Bridge) :
    PoolState × List Ev :=
  if st1.delayedCount == 0 then (st1, [])
  else ((thread_pool.runConts st1 order).1,
        [Ev.unlock] ++ (thread_pool.runConts st1 order).2 ++ [Ev.lock])

def thread_pool.clear (st : PoolState) (order : List Bridge) :
    PoolState × List Ev :=
  let r2 := thread_pool.clearWait (thread_pool.clearScanned st) order
  ({ r2.1 with tasks := [] },
   [Ev.lock] ++ thread_pool.clearScanEv st ++ r2.2 ++ [Ev.unlock]
     ++ r2.1.tasks.flatMap (fun t => [Ev.abandonT t, Ev.releaseT t]))

/-- Embeds `thread_pool::~thread_pool`: swap `m_workers` out under the lock,
send every snapshot worker a stop request, broadcast, run `clear()`, then
wait for and join every worker thread. -/
def thread_pool.dtor (st : PoolState) (order : List Bridge) :
    PoolState × List Ev :=
  let snap := st.workers
  let rc := thread_pool.clear { st with workers := [] } order
  (rc.1,
   [Ev.lock, Ev.unlock] ++ snap.map (fun w => Ev.stopReq w.wid)
     ++ [Ev.broadcast] ++ rc.2 ++ snap.map (fun w => Ev.joinW w.wid))

/-- Embeds one non-blocking pass of the worker loop
(`thread_pool::thread_func`): take the lock; exit if the stop flag is set;
otherwise pop the front task if one is available and execute it outside the
lock.  The branch that blocks in `m_event.wait` releases the mutex and runs
no callback, so it contributes the same `lock`/`unlock` trace. -/
def thread_pool.workerIter (st : PoolState) (stopFlag : Bool) :
    PoolState × List Ev :=
  if stopFlag then (st, [Ev.lock, Ev.unlock])
  else
    match st.tasks with
    | [] => (st, [Ev.lock, Ev.unlock])
    | t :: rest => ({ st with tasks := rest }, [Ev.lock, Ev.unlock, Ev.execT t])

/-! ## General lemmas about traces -/

theorem countEv_append (e : Ev) (a b : List Ev) :
    countEv e (a ++ b) = countEv e a + countEv e b := by
  induction a with
  | nil => simp [countEv]
  | cons x xs ih => simp [countEv, ih]; omega

theorem countNat_append (x : Nat) (a b : List Nat) :
    countNat x (a ++ b) = countNat x a + countNat x b := by
  induction a with
  | nil => simp [countNat]
  | cons y ys ih => simp [countNat, ih]; omega

theorem countNat_eq_zero {x : Nat} {l : List Nat} (h : x ∉ l) :
    countNat x l = 0 := by
  induction l with
  | nil => rfl
  | cons y ys ih =>
      simp only [List.mem_cons, not_or] at h
      simp [countNat, Ne.symm h.1, ih h.2]

theorem countNat_perm {l₁ l₂ : List Nat} (h : l₁.Perm l₂) (x : Nat) :
    countNat x l₁ = countNat x l₂ := by
  induction h with
  | nil => rfl
  | cons y _ ih => simp [countNat, ih]
  | swap y z l => simp [countNat]; omega
  | trans _ _ ih₁ ih₂ => exact ih₁.trans ih₂

theorem countNat_nodup {x : Nat} {l : List Nat} (hn : l.Nodup) (hm : x ∈ l) :
    countNat x l = 1 := by
  induction l with
  | nil => cases hm
  | cons y ys ih =>
      rcases List.mem_cons.mp hm with h | h
      · subst h
        have : x ∉ ys := (List.nodup_cons.mp hn).1
        simp [countNat, countNat_eq_zero this]
      · have hy : y ≠ x := by
          rintro rfl
          exact (List.nodup_cons.mp hn).1 h
        simp [countNat, hy, ih (List.nodup_cons.mp hn).2 h]

theorem depthAfter_append (d : Nat) (a b : List Ev) :
    depthAfter d (a ++ b) = depthAfter (depthAfter d a) b := by
  simp [depthAfter, List.foldl_append]

theorem checkCalls_append (p : Nat → Bool) (q : Nat → Nat → Bool)
    (d : Nat) (a b : List Ev) :
    checkCalls p q d (a ++ b)
      = (checkCalls p q d a && checkCalls p q (depthAfter d a) b) := by
  induction a generalizing d with
  | nil => simp [checkCalls, depthAfter]
  | cons e tr ih =>
      simp only [List.cons_append, checkCalls]
      cases e <;> simp [ih, depthAfter, Bool.and_assoc]

theorem shutdownTail_append (a : List Ev) :
    shutdownTail (a ++ [Ev.unlock, Ev.notify, Ev.joinThread]) = true := by
  simp [shutdownTail, List.reverse_append]

/-! ## Lemmas about the scheduler -/

theorem foldlMin_mem (ts : List SchedTask) (a : SchedTask) :
    ts.foldl (fun a x => if x.point < a.point then x else a) a ∈ a :: ts := by
  induction ts generalizing a with
  | nil => simp [List.foldl]
  | cons t ts ih =>
      simp only [List.foldl]
      rcases List.mem_cons.mp (ih (if t.point < a.point then t else a)) with h | h
      · rw [h]
        by_cases hc : t.point < a.point
        · simp [hc]
        · simp [hc]
      · exact List.mem_cons_of_mem a (List.mem_cons_of_mem t h)

theorem foldlMin_le (ts : List SchedTask) (a : SchedTask) :
    (ts.foldl (fun a x => if x.point < a.point then x else a) a).point ≤ a.point
    ∧ ∀ y ∈ ts,
      (ts.foldl (fun a x => if x.point < a.point then x else a) a).point ≤ y.point := by
  induction ts generalizing a with
  | nil => simp [List.foldl]
  | cons t ts ih =>
      simp only [List.foldl]
      by_cases hc : t.point < a.point
      · rw [if_pos hc]
        rcases ih t with ⟨h1, h2⟩
        refine ⟨le_trans h1 (le_of_lt hc), ?_⟩
        intro y hy
        rcases List.mem_cons.mp hy with h | h
        · subst h; exact h1
        · exact h2 y h
      · rw [if_neg hc]
        rcases ih a with ⟨h1, h2⟩
        refine ⟨h1, ?_⟩
        intro y hy
        rcases List.mem_cons.mp hy with h | h
        · subst h; omega
        · exact h2 y h

theorem findMin_mem {q : List SchedTask} {m : SchedTask}
    (h : findMin q = some m) : m ∈ q := by
  cases q with
  | nil => simp [findMin] at h
  | cons t ts =>
      simp only [findMin, Option.some.injEq] at h
      subst h
      exact foldlMin_mem ts t

theorem findMin_le {q : List SchedTask} {m : SchedTask}
    (h : findMin q = some m) : ∀ y ∈ q, m.point ≤ y.point := by
  cases q with
  | nil => simp [findMin] at h
  | cons t ts =>
      simp only [findMin, Option.some.injEq] at h
      subst h
      intro y hy
      rcases List.mem_cons.mp hy with hy | hy
      · rw [hy]; exact (foldlMin_le ts t).1
      · exact (foldlMin_le ts t).2 y hy

theorem findMin_none {q : List SchedTask} (h : findMin q = none) : q = [] := by
  cases q with
  | nil => rfl
  | cons t ts => simp [findMin] at h

theorem run_passed_go_spec (now : Nat) :
    ∀ (fuel : Nat) (q : List SchedTask),
      (∀ t ∈ (run_passed_go now fuel q).2.1, t ∈ q)
      ∧ (∀ t ∈ (run_passed_go now fuel q).2.1, t.point ≤ now)
      ∧ List.Sorted (· ≤ ·) ((run_passed_go now fuel q).2.1.map SchedTask.point) := by
  intro fuel
  induction fuel with
  | zero => intro q; simp [run_passed_go]
  | succ fuel ih =>
      intro q
      cases hm : findMin q with
      | none => simp [run_passed_go, hm]
      | some m =>
          by_cases hlt : now < m.point
          · simp [run_passed_go, hm, hlt]
          · have hmem := findMin_mem hm
            have hle := findMin_le hm
            rcases ih (q.erase m) with ⟨ih1, ih2, ih3⟩
            simp only [run_passed_go, hm, hlt, if_neg, not_false_iff]
            refine ⟨?_, ?_, ?_⟩
            · intro t ht
              rcases List.mem_cons.mp ht with h | h
              · subst h; exact hmem
              · exact List.mem_of_mem_erase (ih1 t h)
            · intro t ht
              rcases List.mem_cons.mp ht with h | h
              · subst h; omega
              · exact ih2 t h
            · simp only [List.map_cons]
              rw [List.sorted_cons]
              refine ⟨?_, ih3⟩
              intro b hb
              rcases List.mem_map.mp hb with ⟨t, ht, rfl⟩
              exact hle t (List.mem_of_mem_erase (ih1 t ht))

theorem drainQueue_count (x : Nat) :
    ∀ (fuel : Nat) (q : List SchedTask), q.length ≤ fuel →
      countEv (Ev.abandonT x) (drainQueue fuel q)
        = countNat x (q.map SchedTask.tid) := by
  intro fuel
  induction fuel with
  | zero =>
      intro q hq
      have hnil : q = [] := List.eq_nil_of_length_eq_zero (Nat.le_zero.mp hq)
      subst hnil; rfl
  | succ fuel ih =>
      intro q hq
      cases hm : findMin q with
      | none =>
          have hnil := findMin_none hm
          subst hnil; rfl
      | some m =>
          have hmem := findMin_mem hm
          have hperm : q.Perm (m :: q.erase m) := List.perm_cons_erase hmem
          have hlen : (q.erase m).length ≤ fuel := by
            have := List.length_erase_of_mem hmem; omega
          rw [countNat_perm (hperm.map SchedTask.tid) x]
          simp only [drainQueue, hm, countEv, List.map_cons, countNat]
          rw [ih (q.erase m) hlen]
          by_cases hx : m.tid = x
          · simp [hx]
          · simp [hx, Ne.symm hx]

theorem drainQueue_check (p : Nat → Bool) (q2 : Nat → Nat → Bool) (d : Nat)
    (hq : ∀ t, q2 d t = true) :
    ∀ (fuel : Nat) (q : List SchedTask),
      checkCalls p q2 d (drainQueue fuel q) = true
      ∧ depthAfter d (drainQueue fuel q) = d := by
  intro fuel
  induction fuel with
  | zero => intro q; exact ⟨rfl, rfl⟩
  | succ fuel ih =>
      intro q
      cases hm : findMin q with
      | none => simp [drainQueue, hm, checkCalls, depthAfter]
      | some m =>
          rcases ih (q.erase m) with ⟨h1, h2⟩
          simp only [drainQueue, hm, checkCalls, stepDepth]
          constructor
          · simp [hq, h1]
          · simpa [depthAfter] using h2

/-- C7: the scheduler never executes an entry before its deadline —
`run_passed_events` executes exactly the popped tops whose `point` is at
most the sampled `now` — it fires them in non-decreasing deadline order,
and the top under `entry_comparer` is minimal by deadline (no queue entry
compares strictly below it). -/
theorem scheduler_deadline_order (now : Nat) (q : List SchedTask) :
    (∀ t ∈ (run_passed_events now q).2.1, t.point ≤ now)
    ∧ List.Sorted (· ≤ ·) ((run_passed_events now q).2.1.map SchedTask.point)
    ∧ (∀ m y, findMin q = some m → y ∈ q → entry_comparer m y = false) := by
  rcases run_passed_go_spec now q.length q with ⟨_, h2, h3⟩
  refine ⟨h2, h3, ?_⟩
  intro m y hm hy
  have := findMin_le hm y hy
  simp [entry_comparer]
  omega

theorem scheduler_deadline_order_witness :
    (⟨2, 10⟩ : SchedTask).point ≤ 20 ∧ entry_comparer ⟨2, 10⟩ ⟨1, 30⟩ = false :=
  ⟨(scheduler_deadline_order 20 [⟨1, 30⟩, ⟨2, 10⟩, ⟨3, 20⟩]).1 ⟨2, 10⟩ (by decide),
   (scheduler_deadline_order 20 [⟨1, 30⟩, ⟨2, 10⟩, ⟨3, 20⟩]).2.2 ⟨2, 10⟩ ⟨1, 30⟩
     (by decide) (by decide)⟩

/-- C8: the scheduler destructor sets `m_stopped` and, while holding the
mutex, abandons each of the pending entries exactly once, leaving the heap
empty; its final actions are releasing the mutex, notifying `m_newdata`,
and joining the scheduler thread. -/
theorem scheduler_dtor_drains (st : SchedState)
    (hnd : (st.queue.map SchedTask.tid).Nodup) :
    (threaded_scheduler.dtor st).1.queue = []
    ∧ (threaded_scheduler.dtor st).1.stopped = true
    ∧ (∀ t ∈ st.queue,
        countEv (Ev.abandonT t.tid) (threaded_scheduler.dtor st).2 = 1)
    ∧ checkCalls (fun _ => false) (fun d _ => d == 1) 0
        (threaded_scheduler.dtor st).2 = true
    ∧ shutdownTail (threaded_scheduler.dtor st).2 = true := by
  refine ⟨rfl, rfl, ?_, ?_, ?_⟩
  · intro t ht
    show countEv (Ev.abandonT t.tid)
      ([Ev.lock] ++ drainQueue st.queue.length st.queue
        ++ [Ev.unlock, Ev.notify, Ev.joinThread]) = 1
    rw [countEv_append, countEv_append,
        drainQueue_count t.tid st.queue.length st.queue (le_refl _)]
    have : countNat t.tid (st.queue.map SchedTask.tid) = 1 :=
      countNat_nodup hnd (List.mem_map_of_mem SchedTask.tid ht)
    simp [countEv, this]
  · show checkCalls (fun _ => false) (fun d _ => d == 1) 0
      ([Ev.lock] ++ drainQueue st.queue.length st.queue
        ++ [Ev.unlock, Ev.notify, Ev.joinThread]) = true
    rcases drainQueue_check (fun _ => false) (fun d _ => d == 1) 1
      (fun _ => rfl) st.queue.length st.queue with ⟨h1, h2⟩
    rw [checkCalls_append, checkCalls_append]
    simp [checkCalls, depthAfter, stepDepth, h1, h2]
  · show shutdownTail ([Ev.lock] ++ drainQueue st.queue.length st.queue
        ++ [Ev.unlock, Ev.notify, Ev.joinThread]) = true
    have h := shutdownTail_append
      ([Ev.lock] ++ drainQueue st.queue.length st.queue)
    simpa [List.append_assoc] using h

theorem scheduler_dtor_drains_witness :
    (threaded_scheduler.dtor ⟨[⟨5, 10⟩, ⟨6, 7⟩], false⟩).1.queue = []
    ∧ countEv (Ev.abandonT 5)
        (threaded_scheduler.dtor ⟨[⟨5, 10⟩, ⟨6, 7⟩], false⟩).2 = 1 :=
  ⟨(scheduler_dtor_drains ⟨[⟨5, 10⟩, ⟨6, 7⟩], false⟩ (by decide)).1,
   (scheduler_dtor_drains ⟨[⟨5, 10⟩, ⟨6, 7⟩], false⟩ (by decide)).2.2.1
     ⟨5, 10⟩ (by decide)⟩

/-- C9: with an empty heap the scheduler waits until the sentinel
`max_timepoint`, the steady-clock time point whose duration count is
exactly `steady_clock::duration::max().count() / 2 = (2^63 - 1) / 2`. -/
theorem sentinel_half_max :
    next_in [] = max_timepoint
    ∧ max_timepoint = (2 ^ 63 - 1) / 2
    ∧ max_timepoint = 4611686018427387903 :=
  ⟨rfl, rfl, by norm_num [max_timepoint]⟩

/-! ## Claims about the bridge continuation and pool resize -/

/-- C2: when the timer future completes, `continuate` first tries the CAS of
the `marked` latch; if the claim fails it returns with no other effect.  On
a successful claim it takes the pool mutex, unlinks the bridge from
`m_delayed`, appends the owned task at the back of the ready FIFO,
decrements `delayed_count` when it is positive, and when that decrement
reaches zero it signals the event while still holding the lock. -/
theorem continuate_claim_protocol (st : PoolState) (b : Bridge) :
    (b.marked = true → thread_pool.continuate st b = (st, []))
    ∧ (b.marked = false →
        (thread_pool.continuate st b).1.delayed
            = st.delayed.filter (fun x => !(x.bid == b.bid))
        ∧ (thread_pool.continuate st b).1.tasks = st.tasks ++ [b.task]
        ∧ (thread_pool.continuate st b).1.workers = st.workers
        ∧ (0 < st.delayedCount →
            (thread_pool.continuate st b).1.delayedCount = st.delayedCount - 1)
        ∧ (st.delayedCount = 1 →
            hasNotify (thread_pool.continuate st b).2 = true
            ∧ notifiesUnderLock 0 (thread_pool.continuate st b).2 = true)) := by
  constructor
  · intro hm
    simp [thread_pool.continuate, hm]
  · intro hm
    simp only [thread_pool.continuate, hm, Bool.false_eq_true, if_false]
    refine ⟨rfl, rfl, rfl, ?_, ?_⟩
    · intro h
      simp only [thread_pool.continuateBody]
      split
      · omega
      · rfl
    · intro h
      simp [thread_pool.continuateBody, h, hasNotify, notifiesUnderLock,
            stepDepth]

theorem continuate_claim_protocol_witness :
    (thread_pool.continuate ⟨[], 0, [3], [⟨2, false, 9⟩], 1⟩ ⟨2, false, 9⟩).1.tasks
        = [3, 9]
    ∧ hasNotify
        (thread_pool.continuate ⟨[], 0, [3], [⟨2, false, 9⟩], 1⟩ ⟨2, false, 9⟩).2
        = true :=
  ⟨((continuate_claim_protocol ⟨[], 0, [3], [⟨2, false, 9⟩], 1⟩
      ⟨2, false, 9⟩).2 rfl).2.1,
   (((continuate_claim_protocol ⟨[], 0, [3], [⟨2, false, 9⟩], 1⟩
      ⟨2, false, 9⟩).2 rfl).2.2.2.2 rfl).1⟩

/-- C10: on a successful promotion with `delayed_count` already zero, the
continuation still signals the event (the `delayed_count == 0` disjunct of
`notify`), under the lock, having moved its task into the ready FIFO — so a
worker waiting on the event is woken for the newly available task. -/
theorem continuate_notifies_when_already_zero (st : PoolState) (b : Bridge)
    (hm : b.marked = false) (h0 : st.delayedCount = 0) :
    hasNotify (thread_pool.continuate st b).2 = true
    ∧ notifiesUnderLock 0 (thread_pool.continuate st b).2 = true
    ∧ (thread_pool.continuate st b).1.tasks = st.tasks ++ [b.task]
    ∧ (thread_pool.continuate st b).1.delayedCount = 0 := by
  simp [thread_pool.continuate, hm, thread_pool.continuateBody, h0,
        hasNotify, notifiesUnderLock, stepDepth]

theorem continuate_notifies_when_already_zero_witness :
    hasNotify
      (thread_pool.continuate ⟨[], 0, [], [⟨1, false, 7⟩], 0⟩ ⟨1, false, 7⟩).2
      = true
    ∧ (thread_pool.continuate ⟨[], 0, [], [⟨1, false, 7⟩], 0⟩ ⟨1, false, 7⟩).1.tasks
      = [7] :=
  ⟨(continuate_notifies_when_already_zero ⟨[], 0, [], [⟨1, false, 7⟩], 0⟩
      ⟨1, false, 7⟩ rfl rfl).1,
   (continuate_notifies_when_already_zero ⟨[], 0, [], [⟨1, false, 7⟩], 0⟩
      ⟨1, false, 7⟩ rfl rfl).2.2.1⟩

/-- C1 (refuting evaluation): `get_nworkers` returns `m_pending`, not
`|workers| − pending`.  After constructing a pool with four workers
(`set_nworkers(4)` from the empty state, whose returned future is
immediately ready), the pool holds 4 worker handles with `m_pending = 0`,
yet `get_nworkers()` returns 0, where the claim demands
`|workers| − pending = 4`. -/
theorem get_nworkers_returns_pending :
    thread_pool.get_nworkers (thread_pool.ctor 4 [0, 1, 2, 3]) = 0
    ∧ (thread_pool.ctor 4 [0, 1, 2, 3]).workers.length = 4
    ∧ (thread_pool.ctor 4 [0, 1, 2, 3]).pending = 0
    ∧ (thread_pool.set_nworkers thread_pool.init 4 [0, 1, 2, 3]).2
        = Fut.ready := by
  refine ⟨?_, ?_, ?_, ?_⟩ <;> decide

/-- C6 (refuting evaluation): on a pool with one running worker and
`m_pending = 0`, `set_nworkers(0)` hits the `n == m_pending` early return:
it returns an immediately ready future and leaves every worker running with
its stop flag clear, where the claim demands all stop flags set and a future
tied to the joins. -/
theorem set_nworkers_zero_is_noop :
    (thread_pool.set_nworkers (thread_pool.ctor 1 [0]) 0 []).2 = Fut.ready
    ∧ (thread_pool.set_nworkers (thread_pool.ctor 1 [0]) 0 []).1
        = thread_pool.ctor 1 [0]
    ∧ ((thread_pool.ctor 1 [0]).workers.filter
        (fun w => w.stopRequested)).length = 0
    ∧ (thread_pool.ctor 1 [0]).workers.length = 1 := by
  refine ⟨?_, ?_, ?_, ?_⟩ <;> decide

/-- C5 (refuting evaluation): shrinking a pool of 4 handles with a stopping
suffix of 2 (`pending = 2`, logical count `old = 2`) down to `n = 1` stops
exactly `old − n = 1` extra worker (3 stop flags in total) but executes
`m_pending += old_size − n`, yielding `pending = 5` — not the
`pending = 3` (count of stop-requested workers) the claim demands. -/
theorem shrink_pending_overcount :
    ((thread_pool.set_nworkers (thread_pool.ctor 4 [0, 1, 2, 3]) 2 []).1).pending
        = 2
    ∧ (((thread_pool.set_nworkers (thread_pool.ctor 4 [0, 1, 2, 3]) 2 []).1
        ).workers.filter (fun w => w.stopRequested)).length = 2
    ∧ ((thread_pool.set_nworkers
        ((thread_pool.set_nworkers (thread_pool.ctor 4 [0, 1, 2, 3]) 2 []).1)
        1 []).1).pending = 5
    ∧ (((thread_pool.set_nworkers
        ((thread_pool.set_nworkers (thread_pool.ctor 4 [0, 1, 2, 3]) 2 []).1)
        1 []).1).workers.filter (fun w => w.stopRequested)).length = 3
    ∧ ((thread_pool.set_nworkers
        ((thread_pool.set_nworkers (thread_pool.ctor 4 [0, 1, 2, 3]) 2 []).1)
        1 []).1).workers.length = 4 := by
  refine ⟨?_, ?_, ?_, ?_, ?_⟩ <;> decide

/-! ## Lemmas about `thread_pool::clear` -/

theorem abandonThenRelease_cons (t : Nat) (e : Ev) {l : List Ev}
    (h : abandonThenRelease t l = true) :
    abandonThenRelease t (e :: l) = true := by
  cases l with
  | nil => simp [abandonThenRelease] at h
  | cons e2 tr => cases e <;> cases e2 <;> simp_all [abandonThenRelease]

theorem abandonThenRelease_append (t : Nat) (l1 l2 : List Ev)
    (h : abandonThenRelease t l2 = true) :
    abandonThenRelease t (l1 ++ l2) = true := by
  induction l1 with
  | nil => simpa using h
  | cons e l1 ih => exact abandonThenRelease_cons t e ih

theorem pair_flatMap_mem {x : Nat} {l : List Nat} (h : x ∈ l) :
    abandonThenRelease x
      (l.flatMap (fun t => [Ev.abandonT t, Ev.releaseT t])) = true := by
  induction l with
  | nil => cases h
  | cons y ys ih =>
      rcases List.mem_cons.mp h with h | h
      · subst h
        simp [List.flatMap_cons, abandonThenRelease]
      · have h1 := abandonThenRelease_cons x (Ev.releaseT y) (ih h)
        have h2 := abandonThenRelease_cons x (Ev.abandonT y) h1
        simpa [List.flatMap_cons] using h2

theorem pair_count_aband (x : Nat) (l : List Nat) :
    countEv (Ev.abandonT x)
      (l.flatMap (fun t => [Ev.abandonT t, Ev.releaseT t])) = countNat x l := by
  induction l with
  | nil => rfl
  | cons y ys ih =>
      rw [List.flatMap_cons, countEv_append, ih]
      by_cases h : y = x
      · subst h; simp [countEv, countNat]
      · simp [countEv, countNat, h]

theorem pair_count_rel (x : Nat) (l : List Nat) :
    countEv (Ev.releaseT x)
      (l.flatMap (fun t => [Ev.abandonT t, Ev.releaseT t])) = countNat x l := by
  induction l with
  | nil => rfl
  | cons y ys ih =>
      rw [List.flatMap_cons, countEv_append, ih]
      by_cases h : y = x
      · subst h; simp [countEv, countNat]
      · simp [countEv, countNat, h]

theorem pair_count_promote (x : Nat) (l : List Nat) :
    countEv (Ev.promote x)
      (l.flatMap (fun t => [Ev.abandonT t, Ev.releaseT t])) = 0 := by
  induction l with
  | nil => rfl
  | cons y ys ih =>
      rw [List.flatMap_cons, countEv_append, ih]
      simp [countEv]

theorem pair_check (p : Nat → Bool) (q2 : Nat → Nat → Bool) (d : Nat) :
    ∀ l : List Nat, (∀ t ∈ l, q2 d t = true) →
      checkCalls p q2 d
        (l.flatMap (fun t => [Ev.abandonT t, Ev.releaseT t])) = true
      ∧ depthAfter d
        (l.flatMap (fun t => [Ev.abandonT t, Ev.releaseT t])) = d := by
  intro l
  induction l with
  | nil => intro _; exact ⟨rfl, rfl⟩
  | cons y ys ih =>
      intro hq
      rcases ih (fun t ht => hq t (List.mem_cons_of_mem y ht)) with ⟨h1, h2⟩
      constructor
      · rw [List.flatMap_cons, checkCalls_append]
        simp [checkCalls, stepDepth, depthAfter,
              hq y (List.mem_cons_self y ys), h1]
      · rw [List.flatMap_cons, depthAfter_append]
        simpa [depthAfter, stepDepth] using h2

theorem ph1_count_aband (x : Nat) (l : List Bridge) :
    countEv (Ev.abandonT x)
      (l.flatMap (fun b => if b.marked then []
          else [Ev.abandonT b.task, Ev.releaseB b.bid]))
      = countNat x ((l.filter (fun b => !b.marked)).map Bridge.task) := by
  induction l with
  | nil => rfl
  | cons b bs ih =>
      rw [List.flatMap_cons, countEv_append, ih]
      cases hmk : b.marked with
      | true => simp [List.filter_cons, hmk, countEv]
      | false =>
          by_cases h : b.task = x
          · subst h; simp [List.filter_cons, hmk, countEv, countNat]
          · simp [List.filter_cons, hmk, countEv, countNat, h]

theorem ph1_count_rel (x : Nat) (l : List Bridge) :
    countEv (Ev.releaseT x)
      (l.flatMap (fun b => if b.marked then []
          else [Ev.abandonT b.task, Ev.releaseB b.bid])) = 0 := by
  induction l with
  | nil => rfl
  | cons b bs ih =>
      rw [List.flatMap_cons, countEv_append, ih]
      cases hmk : b.marked <;> simp [countEv]

theorem ph1_count_promote (x : Nat) (l : List Bridge) :
    countEv (Ev.promote x)
      (l.flatMap (fun b => if b.marked then []
          else [Ev.abandonT b.task, Ev.releaseB b.bid])) = 0 := by
  induction l with
  | nil => rfl
  | cons b bs ih =>
      rw [List.flatMap_cons, countEv_append, ih]
      cases hmk : b.marked <;> simp [countEv]

theorem ph1_check (p : Nat → Bool) (q2 : Nat → Nat → Bool) (d : Nat) :
    ∀ l : List Bridge, (∀ b ∈ l, b.marked = false → q2 d b.task = true) →
      checkCalls p q2 d
        (l.flatMap (fun b => if b.marked then []
            else [Ev.abandonT b.task, Ev.releaseB b.bid])) = true
      ∧ depthAfter d
        (l.flatMap (fun b => if b.marked then []
            else [Ev.abandonT b.task, Ev.releaseB b.bid])) = d := by
  intro l
  induction l with
  | nil => intro _; exact ⟨rfl, rfl⟩
  | cons b bs ih =>
      intro hq
      rcases ih (fun c hc hm => hq c (List.mem_cons_of_mem b hc) hm) with ⟨h1, h2⟩
      cases hmk : b.marked with
      | true =>
          constructor
          · rw [List.flatMap_cons, checkCalls_append]
            simp [hmk, checkCalls, depthAfter, h1]
          · rw [List.flatMap_cons, depthAfter_append]
            simpa [hmk, depthAfter] using h2
      | false =>
          have hqb := hq b (List.mem_cons_self b bs) hmk
          constructor
          · rw [List.flatMap_cons, checkCalls_append]
            simp [hmk, checkCalls, stepDepth, depthAfter, hqb, h1]
          · rw [List.flatMap_cons, depthAfter_append]
            simpa [hmk, depthAfter, stepDepth] using h2

theorem contBody_trace (st : PoolState) (b : Bridge) (x : Nat)
    (p : Nat → Bool) (q2 : Nat → Nat → Bool) :
    countEv (Ev.abandonT x) (thread_pool.continuateBody st b).2 = 0
    ∧ countEv (Ev.releaseT x) (thread_pool.continuateBody st b).2 = 0
    ∧ countEv (Ev.promote x) (thread_pool.continuateBody st b).2
        = (if b.task = x then 1 else 0)
    ∧ checkCalls p q2 0 (thread_pool.continuateBody st b).2 = true
    ∧ depthAfter 0 (thread_pool.continuateBody st b).2 = 0 := by
  simp only [thread_pool.continuateBody]
  cases hd : (st.delayedCount == 0 || st.delayedCount - 1 == 0) <;>
    by_cases h : b.task = x <;>
      simp [hd, h, countEv, checkCalls, depthAfter, stepDepth]

theorem runConts_counts (x : Nat) :
    ∀ (l : List Bridge) (st : PoolState),
      countEv (Ev.abandonT x) (thread_pool.runConts st l).2 = 0
      ∧ countEv (Ev.releaseT x) (thread_pool.runConts st l).2 = 0
      ∧ countEv (Ev.promote x) (thread_pool.runConts st l).2
          = countNat x (l.map Bridge.task) := by
  intro l
  induction l with
  | nil => intro st; exact ⟨rfl, rfl, rfl⟩
  | cons b rest ih =>
      intro st
      rcases ih (thread_pool.continuateBody st b).1 with ⟨i1, i2, i3⟩
      rcases contBody_trace st b x (fun _ => true) (fun _ _ => true)
        with ⟨c1, c2, c3, _, _⟩
      simp only [thread_pool.runConts]
      rw [countEv_append, countEv_append, countEv_append]
      rw [i1, i2, i3, c1, c2, c3]
      simp [countNat]

theorem runConts_check (p : Nat → Bool) (q2 : Nat → Nat → Bool) :
    ∀ (l : List Bridge) (st : PoolState),
      checkCalls p q2 0 (thread_pool.runConts st l).2 = true
      ∧ depthAfter 0 (thread_pool.runConts st l).2 = 0 := by
  intro l
  induction l with
  | nil => intro st; exact ⟨rfl, rfl⟩
  | cons b rest ih =>
      intro st
      rcases ih (thread_pool.continuateBody st b).1 with ⟨i1, i2⟩
      rcases contBody_trace st b 0 p q2 with ⟨_, _, _, c4, c5⟩
      simp only [thread_pool.runConts]
      constructor
      · rw [checkCalls_append, c4, c5]
        simpa using i1
      · rw [depthAfter_append, c5]
        exact i2

theorem runConts_state :
    ∀ (l : List Bridge) (st : PoolState),
      st.delayed.Perm l → (l.map Bridge.bid).Nodup →
      st.delayedCount = l.length →
      (thread_pool.runConts st l).1
        = ⟨st.workers, st.pending, st.tasks ++ l.map Bridge.task, [], 0⟩ := by
  intro l
  induction l with
  | nil =>
      intro st hp _ hc
      have hd : st.delayed = [] := hp.eq_nil
      cases st
      simp only [thread_pool.runConts]
      simp_all
  | cons b rest ih =>
      intro st hp hnd hc
      have hbid : b.bid ∉ rest.map Bridge.bid := (List.nodup_cons.mp hnd).1
      have hfil : (st.delayed.filter (fun x => !(x.bid == b.bid))).Perm rest := by
        have h1 : (st.delayed.filter (fun x => !(x.bid == b.bid))).Perm
            ((b :: rest).filter (fun x => !(x.bid == b.bid))) := hp.filter _
        have h2 : (b :: rest).filter (fun x => !(x.bid == b.bid)) = rest := by
          rw [List.filter_cons]
          simp only [beq_self_eq_true, Bool.not_true, Bool.false_eq_true,
                     if_false]
          apply List.filter_eq_self.mpr
          intro a ha
          have hne : a.bid ≠ b.bid := by
            intro hEq
            exact hbid (hEq ▸ List.mem_map_of_mem Bridge.bid ha)
          simp [hne]
        rw [h2] at h1
        exact h1
      have hstep := ih (thread_pool.continuateBody st b).1
        (by simpa [thread_pool.continuateBody] using hfil)
        (List.nodup_cons.mp hnd).2
        (by simp [thread_pool.continuateBody, hc])
      simp only [thread_pool.runConts]
      rw [hstep]
      simp [thread_pool.continuateBody, List.append_assoc]

theorem clear_spec (st : PoolState) (order : List Bridge)
    (h0 : st.delayedCount = 0)
    (hperm : order.Perm (thread_pool.survivors st))
    (hbid : (st.delayed.map Bridge.bid).Nodup) :
    (thread_pool.clear st order).1 = ⟨st.workers, st.pending, [], [], 0⟩
    ∧ (∀ x, countEv (Ev.abandonT x) (thread_pool.clear st order).2
        = countNat x ((st.delayed.filter (fun b => !b.marked)).map Bridge.task)
          + countNat x (st.tasks ++ order.map Bridge.task))
    ∧ (∀ x, countEv (Ev.releaseT x) (thread_pool.clear st order).2
        = countNat x (st.tasks ++ order.map Bridge.task))
    ∧ (∀ x, countEv (Ev.promote x) (thread_pool.clear st order).2
        = countNat x (order.map Bridge.task))
    ∧ (∀ t ∈ st.tasks ++ order.map Bridge.task,
        abandonThenRelease t (thread_pool.clear st order).2 = true)
    ∧ (∀ q2 : Nat → Nat → Bool,
        (∀ b ∈ st.delayed, b.marked = false → q2 1 b.task = true) →
        (∀ t ∈ st.tasks ++ order.map Bridge.task, q2 0 t = true) →
        checkCalls (fun d => d == 0) q2 0 (thread_pool.clear st order).2
          = true) := by
  obtain ⟨wEv, hwEq, hwA, hwR, hwP, hwCheck⟩ :
      ∃ wEv,
        thread_pool.clearWait (thread_pool.clearScanned st) order
          = (⟨st.workers, st.pending, st.tasks ++ order.map Bridge.task,
              [], 0⟩, wEv)
        ∧ (∀ x, countEv (Ev.abandonT x) wEv = 0)
        ∧ (∀ x, countEv (Ev.releaseT x) wEv = 0)
        ∧ (∀ x, countEv (Ev.promote x) wEv = countNat x (order.map Bridge.task))
        ∧ (∀ (p : Nat → Bool) (q2 : Nat → Nat → Bool),
            checkCalls p q2 1 wEv = true ∧ depthAfter 1 wEv = 1) := by
    by_cases hsv : thread_pool.survivors st = []
    · have horder : order = [] := by rw [hsv] at hperm; exact hperm.eq_nil
      have hc0 : (thread_pool.clearScanned st).delayedCount = 0 := by
        simp [thread_pool.clearScanned, h0, hsv]
      refine ⟨[], ?_, fun x => rfl, fun x => rfl, ?_, fun p q2 => ⟨rfl, rfl⟩⟩
      · rw [thread_pool.clearWait, if_pos (by simp [hc0])]
        have : thread_pool.clearScanned st
            = ⟨st.workers, st.pending, st.tasks ++ order.map Bridge.task,
               [], 0⟩ := by
          cases st
          simp_all [thread_pool.clearScanned, horder]
        rw [this]
      · intro x
        simp [horder, countNat, countEv]
    · have hlen : (thread_pool.survivors st).length ≠ 0 := by
        intro h
        exact hsv (List.eq_nil_of_length_eq_zero h)
      have hcond : ((thread_pool.clearScanned st).delayedCount == 0) = false := by
        simp only [thread_pool.clearScanned, h0, Nat.zero_add, beq_eq_false_iff_ne,
                   ne_eq]
        exact hlen
      have hsub : ((thread_pool.survivors st).map Bridge.bid).Nodup := by
        have h1 : (thread_pool.survivors st).Sublist st.delayed :=
          List.filter_sublist _
        exact (h1.map Bridge.bid).nodup hbid
      have hond : (order.map Bridge.bid).Nodup :=
        ((hperm.map Bridge.bid).nodup_iff).mpr hsub
      have hst1 := runConts_state order (thread_pool.clearScanned st)
        (by simpa [thread_pool.clearScanned] using hperm.symm)
        hond
        (by simp [thread_pool.clearScanned, h0, hperm.length_eq])
      refine ⟨[Ev.unlock] ++ (thread_pool.runConts
          (thread_pool.clearScanned st) order).2 ++ [Ev.lock],
        ?_, ?_, ?_, ?_, ?_⟩
      · rw [thread_pool.clearWait, if_neg (by simp [hcond])]
        rw [hst1]
        rfl
      · intro x
        rcases runConts_counts x order (thread_pool.clearScanned st)
          with ⟨c1, _, _⟩
        rw [countEv_append, countEv_append, c1]
        simp [countEv]
      · intro x
        rcases runConts_counts x order (thread_pool.clearScanned st)
          with ⟨_, c2, _⟩
        rw [countEv_append, countEv_append, c2]
        simp [countEv]
      · intro x
        rcases runConts_counts x order (thread_pool.clearScanned st)
          with ⟨_, _, c3⟩
        rw [countEv_append, countEv_append, c3]
        simp [countEv]
      · intro p q2
        rcases runConts_check p q2 order (thread_pool.clearScanned st)
          with ⟨k1, k2⟩
        have e1 : depthAfter 1 [Ev.unlock] = 0 := rfl
        constructor
        · rw [checkCalls_append, checkCalls_append]
          simp only [depthAfter_append]
          rw [e1, k2]
          simp [checkCalls, stepDepth, k1]
        · simp only [depthAfter_append]
          rw [e1, k2]
          rfl
  have htr : (thread_pool.clear st order).2
      = [Ev.lock] ++ thread_pool.clearScanEv st ++ wEv ++ [Ev.unlock]
        ++ ((st.tasks ++ order.map Bridge.task).flatMap
            (fun t => [Ev.abandonT t, Ev.releaseT t])) := by
    simp only [thread_pool.clear, hwEq]
  have hst : (thread_pool.clear st order).1
      = ⟨st.workers, st.pending, [], [], 0⟩ := by
    simp only [thread_pool.clear, hwEq]
  refine ⟨hst, ?_, ?_, ?_, ?_, ?_⟩
  · intro x
    rw [htr, countEv_append, countEv_append, countEv_append, countEv_append,
        pair_count_aband]
    rw [show countEv (Ev.abandonT x) (thread_pool.clearScanEv st)
          = countNat x ((st.delayed.filter
              (fun b => !b.marked)).map Bridge.task) from
        ph1_count_aband x st.delayed]
    rw [hwA x]
    simp [countEv]
  · intro x
    rw [htr, countEv_append, countEv_append, countEv_append, countEv_append,
        pair_count_rel]
    rw [show countEv (Ev.releaseT x) (thread_pool.clearScanEv st) = 0 from
        ph1_count_rel x st.delayed]
    rw [hwR x]
    simp [countEv]
  · intro x
    rw [htr, countEv_append, countEv_append, countEv_append, countEv_append,
        pair_count_promote]
    rw [show countEv (Ev.promote x) (thread_pool.clearScanEv st) = 0 from
        ph1_count_promote x st.delayed]
    rw [hwP x]
    simp [countEv]
  · intro t ht
    rw [htr]
    have p1 := pair_flatMap_mem ht
    have p2 := abandonThenRelease_append t [Ev.unlock] _ p1
    have p3 := abandonThenRelease_append t wEv _ p2
    have p4 := abandonThenRelease_append t (thread_pool.clearScanEv st) _ p3
    have p5 := abandonThenRelease_append t [Ev.lock] _ p4
    simpa [List.append_assoc] using p5
  · intro q2 hq1 hq2
    rw [htr]
    rcases ph1_check (fun d => d == 0) q2 1 st.delayed hq1 with ⟨g1, g2⟩
    rcases pair_check (fun d => d == 0) q2 0
      (st.tasks ++ order.map Bridge.task) hq2 with ⟨g3, _⟩
    rcases hwCheck (fun d => d == 0) q2 with ⟨g5, g6⟩
    rw [checkCalls_append, checkCalls_append, checkCalls_append,
        checkCalls_append]
    have e1 : depthAfter 0 [Ev.lock] = 1 := rfl
    have e2 : depthAfter 1 [Ev.unlock] = 0 := rfl
    simp only [thread_pool.clearScanEv]
    simp only [depthAfter_append]
    rw [e1, g2, g6, e2]
    simp [checkCalls, stepDepth, g1, g5]
    simpa using g3

/-- C3: after `thread_pool::clear` returns (from an entry state satisfying
its `delayed_count == 0` assertion, the continuations of the bridges the
timers had already claimed running in an arbitrary interleaving `order`
while `clear` waits), every delayed bridge that existed at entry has been
resolved — an unmarked bridge's task received `task_abandone` exactly once,
a marked bridge's task was promoted into the ready FIFO by its continuation
exactly once — `delayed_count` is zero, the ready FIFO is empty, and every
task in the FIFO at entry received `task_abandone` immediately followed by
`task_release`, each exactly once. -/
theorem pool_clear_resolves (st : PoolState) (order : List Bridge)
    (h0 : st.delayedCount = 0)
    (hperm : order.Perm (thread_pool.survivors st))
    (hbid : (st.delayed.map Bridge.bid).Nodup)
    (hnd : (st.delayed.map Bridge.task ++ st.tasks).Nodup) :
    (thread_pool.clear st order).1.delayedCount = 0
    ∧ (thread_pool.clear st order).1.tasks = []
    ∧ (thread_pool.clear st order).1.delayed = []
    ∧ (∀ b ∈ st.delayed, b.marked = false →
        countEv (Ev.abandonT b.task) (thread_pool.clear st order).2 = 1)
    ∧ (∀ b ∈ st.delayed, b.marked = true →
        countEv (Ev.promote b.task) (thread_pool.clear st order).2 = 1)
    ∧ (∀ t ∈ st.tasks,
        abandonThenRelease t (thread_pool.clear st order).2 = true
        ∧ countEv (Ev.abandonT t) (thread_pool.clear st order).2 = 1
        ∧ countEv (Ev.releaseT t) (thread_pool.clear st order).2 = 1) := by
  obtain ⟨hstate, hA, hR, hP, hPair, _⟩ := clear_spec st order h0 hperm hbid
  obtain ⟨hndD, hndT, hdisj⟩ := List.nodup_append.mp hnd
  have hsubU : ((st.delayed.filter (fun b => !b.marked)).map
      Bridge.task).Sublist (st.delayed.map Bridge.task) :=
    (List.filter_sublist _).map _
  have hsubM : ((thread_pool.survivors st).map Bridge.task).Sublist
      (st.delayed.map Bridge.task) := (List.filter_sublist _).map _
  have hndU : ((st.delayed.filter (fun b => !b.marked)).map
      Bridge.task).Nodup := hsubU.nodup hndD
  have hndM : ((thread_pool.survivors st).map Bridge.task).Nodup :=
    hsubM.nodup hndD
  have hpermMU : (((thread_pool.survivors st).map Bridge.task)
      ++ ((st.delayed.filter (fun b => !b.marked)).map Bridge.task)).Perm
      (st.delayed.map Bridge.task) := by
    have h1 := List.filter_append_perm (fun b => b.marked) st.delayed
    simpa [thread_pool.survivors] using h1.map Bridge.task
  have hndMU := (hpermMU.nodup_iff).mpr hndD
  obtain ⟨_, _, hdisjMU⟩ := List.nodup_append.mp hndMU
  refine ⟨by rw [hstate], by rw [hstate], by rw [hstate], ?_, ?_, ?_⟩
  · intro b hb hm
    rw [hA b.task, countNat_append]
    have hmemU : b.task ∈ (st.delayed.filter (fun b => !b.marked)).map
        Bridge.task :=
      List.mem_map_of_mem Bridge.task (List.mem_filter.mpr ⟨hb, by simp [hm]⟩)
    have hmemD : b.task ∈ st.delayed.map Bridge.task :=
      List.mem_map_of_mem _ hb
    have c1 : countNat b.task ((st.delayed.filter (fun b => !b.marked)).map
        Bridge.task) = 1 := countNat_nodup hndU hmemU
    have c2 : countNat b.task st.tasks = 0 :=
      countNat_eq_zero (fun hc => hdisj hmemD hc)
    have c3 : countNat b.task (order.map Bridge.task) = 0 := by
      rw [countNat_perm (hperm.map Bridge.task) b.task]
      exact countNat_eq_zero (fun hc => hdisjMU hc hmemU)
    rw [c1, c2, c3]
  · intro b hb hm
    rw [hP b.task, countNat_perm (hperm.map Bridge.task) b.task]
    have hmemM : b.task ∈ (thread_pool.survivors st).map Bridge.task :=
      List.mem_map_of_mem Bridge.task
        (List.mem_filter.mpr ⟨hb, by simp [hm]⟩)
    exact countNat_nodup hndM hmemM
  · intro t ht
    have htmem : t ∈ st.tasks ++ order.map Bridge.task :=
      List.mem_append_left _ ht
    have hnotD : t ∉ st.delayed.map Bridge.task := fun hc => hdisj hc ht
    have c2 : countNat t st.tasks = 1 := countNat_nodup hndT ht
    have c3 : countNat t (order.map Bridge.task) = 0 := by
      rw [countNat_perm (hperm.map Bridge.task) t]
      exact countNat_eq_zero (fun hc => hnotD (hsubM.subset hc))
    refine ⟨hPair t htmem, ?_, ?_⟩
    · rw [hA t, countNat_append]
      have c1 : countNat t ((st.delayed.filter (fun b => !b.marked)).map
          Bridge.task) = 0 :=
        countNat_eq_zero (fun hc => hnotD (hsubU.subset hc))
      rw [c1, c2, c3]
    · rw [hR t, countNat_append, c2, c3]

theorem pool_clear_resolves_witness :
    countEv (Ev.abandonT 10)
      (thread_pool.clear ⟨[], 0, [7], [⟨1, false, 10⟩, ⟨2, true, 11⟩], 0⟩
        [⟨2, true, 11⟩]).2 = 1
    ∧ countEv (Ev.promote 11)
      (thread_pool.clear ⟨[], 0, [7], [⟨1, false, 10⟩, ⟨2, true, 11⟩], 0⟩
        [⟨2, true, 11⟩]).2 = 1
    ∧ abandonThenRelease 7
      (thread_pool.clear ⟨[], 0, [7], [⟨1, false, 10⟩, ⟨2, true, 11⟩], 0⟩
        [⟨2, true, 11⟩]).2 = true :=
  ⟨(pool_clear_resolves ⟨[], 0, [7], [⟨1, false, 10⟩, ⟨2, true, 11⟩], 0⟩
      [⟨2, true, 11⟩] rfl (by decide) (by decide) (by decide)).2.2.2.1
      ⟨1, false, 10⟩ (by decide) rfl,
   (pool_clear_resolves ⟨[], 0, [7], [⟨1, false, 10⟩, ⟨2, true, 11⟩], 0⟩
      [⟨2, true, 11⟩] rfl (by decide) (by decide) (by decide)).2.2.2.2.1
      ⟨2, true, 11⟩ (by decide) rfl,
   ((pool_clear_resolves ⟨[], 0, [7], [⟨1, false, 10⟩, ⟨2, true, 11⟩], 0⟩
      [⟨2, true, 11⟩] rfl (by decide) (by decide) (by decide)).2.2.2.2.2
      7 (by decide)).1⟩

theorem run_passed_check (now : Nat) :
    ∀ (fuel : Nat) (q : List SchedTask),
      checkCalls (fun d => d == 0) (fun d _ => d == 0) 0
        (run_passed_go now fuel q).2.2 = true
      ∧ depthAfter 0 (run_passed_go now fuel q).2.2 = 0 := by
  intro fuel
  induction fuel with
  | zero => intro q; exact ⟨rfl, rfl⟩
  | succ fuel ih =>
      intro q
      cases hm : findMin q with
      | none => exact ⟨by simp [run_passed_go, hm, checkCalls, stepDepth],
                      by simp [run_passed_go, hm, depthAfter, stepDepth]⟩
      | some m =>
          by_cases hlt : now < m.point
          · exact ⟨by simp [run_passed_go, hm, hlt, checkCalls, stepDepth],
                   by simp [run_passed_go, hm, hlt, depthAfter, stepDepth]⟩
          · rcases ih (q.erase m) with ⟨h1, h2⟩
            simp only [run_passed_go, hm, hlt, if_neg, not_false_iff]
            constructor
            · rw [checkCalls_append]
              simp [checkCalls, stepDepth, depthAfter, h1]
            · rw [depthAfter_append]
              simpa [depthAfter, stepDepth] using h2

theorem stopReqs_check (p : Nat → Bool) (q2 : Nat → Nat → Bool) (d : Nat)
    (l : List Worker) :
    checkCalls p q2 d (l.map (fun w => Ev.stopReq w.wid)) = true
    ∧ depthAfter d (l.map (fun w => Ev.stopReq w.wid)) = d := by
  induction l with
  | nil => exact ⟨rfl, rfl⟩
  | cons w ws ih =>
      rcases ih with ⟨h1, h2⟩
      exact ⟨by simpa [checkCalls, stepDepth] using h1,
             by simpa [depthAfter, stepDepth] using h2⟩

theorem joinWs_check (p : Nat → Bool) (q2 : Nat → Nat → Bool) (d : Nat)
    (l : List Worker) :
    checkCalls p q2 d (l.map (fun w => Ev.joinW w.wid)) = true
    ∧ depthAfter d (l.map (fun w => Ev.joinW w.wid)) = d := by
  induction l with
  | nil => exact ⟨rfl, rfl⟩
  | cons w ws ih =>
      rcases ih with ⟨h1, h2⟩
      exact ⟨by simpa [checkCalls, stepDepth] using h1,
             by simpa [depthAfter, stepDepth] using h2⟩

/-- C4 (refuting evaluation): the claim as stated — every `task_execute`
and `task_abandone` runs with the engine mutex released — is false on the
code: the scheduler destructor with one pending entry abandons it at lock
depth 1, and `thread_pool::clear` on a pool holding one unclaimed delayed
bridge abandons the bridge's task at lock depth 1. -/
theorem callbacks_outside_lock_cex :
    checkCalls (fun d => d == 0) (fun d _ => d == 0) 0
      (threaded_scheduler.dtor ⟨[⟨5, 10⟩], false⟩).2 = false
    ∧ checkCalls (fun d => d == 0) (fun d _ => d == 0) 0
      (thread_pool.clear ⟨[], 0, [], [⟨1, false, 7⟩], 0⟩ []).2 = false := by
  refine ⟨?_, ?_⟩ <;> decide

/-- C4 (amended): every `task_execute` made by the worker loop, the
scheduler loop, pool `clear()`, the pool destructor, scheduler `clear()`
and the scheduler destructor runs with the engine mutex released, and so
does every `task_abandone` — except the abandons of unclaimed delayed
bridges inside pool `clear()` (hence also the pool destructor) and the
abandons in the scheduler destructor, which run while the mutex is held
(at lock depth exactly 1). -/
theorem callbacks_lock_discipline (stp : PoolState) (flag : Bool)
    (now : Nat) (qs : SchedState) (sts : SchedState)
    (stc : PoolState) (order : List Bridge)
    (h0 : stc.delayedCount = 0)
    (hperm : order.Perm (thread_pool.survivors stc))
    (hbid : (stc.delayed.map Bridge.bid).Nodup)
    (hnd : (stc.delayed.map Bridge.task ++ stc.tasks).Nodup) :
    checkCalls (fun d => d == 0) (fun d _ => d == 0) 0
        (thread_pool.workerIter stp flag).2 = true
    ∧ checkCalls (fun d => d == 0) (fun d _ => d == 0) 0
        (threaded_scheduler.iter now qs).2 = true
    ∧ checkCalls (fun d => d == 0) (fun d _ => d == 0) 0
        (threaded_scheduler.clear sts).2 = true
    ∧ checkCalls (fun d => d == 0) (fun d _ => d == 1) 0
        (threaded_scheduler.dtor sts).2 = true
    ∧ checkCalls (fun d => d == 0)
        (fun d t => if t ∈ (stc.delayed.filter
            (fun b => !b.marked)).map Bridge.task then d == 1 else d == 0) 0
        (thread_pool.clear stc order).2 = true
    ∧ checkCalls (fun d => d == 0)
        (fun d t => if t ∈ (stc.delayed.filter
            (fun b => !b.marked)).map Bridge.task then d == 1 else d == 0) 0
        (thread_pool.dtor stc order).2 = true := by
  have hclearGen : ∀ w : List Worker, checkCalls (fun d => d == 0)
      (fun d t => if t ∈ (stc.delayed.filter
          (fun b => !b.marked)).map Bridge.task then d == 1 else d == 0) 0
      (thread_pool.clear
        ⟨w, stc.pending, stc.tasks, stc.delayed, stc.delayedCount⟩
        order).2 = true := by
    intro w
    obtain ⟨hndD, hndT, hdisj⟩ := List.nodup_append.mp hnd
    have hsubU : ((stc.delayed.filter (fun b => !b.marked)).map
        Bridge.task).Sublist (stc.delayed.map Bridge.task) :=
      (List.filter_sublist _).map _
    have hsubM : ((thread_pool.survivors stc).map Bridge.task).Sublist
        (stc.delayed.map Bridge.task) := (List.filter_sublist _).map _
    have hpermMU : (((thread_pool.survivors stc).map Bridge.task)
        ++ ((stc.delayed.filter (fun b => !b.marked)).map Bridge.task)).Perm
        (stc.delayed.map Bridge.task) := by
      have h1 := List.filter_append_perm (fun b => b.marked) stc.delayed
      simpa [thread_pool.survivors] using h1.map Bridge.task
    have hndMU := (hpermMU.nodup_iff).mpr hndD
    obtain ⟨_, _, hdisjMU⟩ := List.nodup_append.mp hndMU
    obtain ⟨_, _, _, _, _, hCheck⟩ := clear_spec
      ⟨w, stc.pending, stc.tasks, stc.delayed, stc.delayedCount⟩
      order h0 hperm hbid
    apply hCheck
    · intro b hb hm
      have hmemU : b.task ∈ (stc.delayed.filter (fun b => !b.marked)).map
          Bridge.task :=
        List.mem_map_of_mem Bridge.task
          (List.mem_filter.mpr ⟨hb, by simp [hm]⟩)
      simp [hmemU]
    · intro t ht
      rcases List.mem_append.mp ht with ht | ht
      · have hnotU : t ∉ (stc.delayed.filter (fun b => !b.marked)).map
            Bridge.task := fun hc => hdisj (hsubU.subset hc) ht
        simp [hnotU]
      · have htM : t ∈ (thread_pool.survivors stc).map Bridge.task := by
          have := (hperm.map Bridge.task).mem_iff.mp ht
          exact this
        have hnotU : t ∉ (stc.delayed.filter (fun b => !b.marked)).map
            Bridge.task := fun hc => hdisjMU htM hc
        simp [hnotU]
  have hclear : checkCalls (fun d => d == 0)
      (fun d t => if t ∈ (stc.delayed.filter
          (fun b => !b.marked)).map Bridge.task then d == 1 else d == 0) 0
      (thread_pool.clear stc order).2 = true := hclearGen stc.workers
  refine ⟨?_, ?_, ?_, ?_, hclear, ?_⟩
  · cases flag with
    | true => simp [thread_pool.workerIter, checkCalls, stepDepth]
    | false =>
        cases htk : stp.tasks with
        | nil => simp [thread_pool.workerIter, htk, checkCalls, stepDepth]
        | cons t rest =>
            simp [thread_pool.workerIter, htk, checkCalls, stepDepth]
  · rcases run_passed_check now qs.queue.length qs.queue with ⟨h1, h2⟩
    show checkCalls (fun d => d == 0) (fun d _ => d == 0) 0
      ((run_passed_events now qs.queue).2.2 ++ [Ev.lock, Ev.unlock]) = true
    rw [checkCalls_append]
    simp [run_passed_events, h1, h2, checkCalls, stepDepth, depthAfter]
  · rcases drainQueue_check (fun d => d == 0) (fun d _ => d == 0) 0
      (fun _ => rfl) sts.queue.length sts.queue with ⟨h1, h2⟩
    show checkCalls (fun d => d == 0) (fun d _ => d == 0) 0
      ([Ev.lock, Ev.unlock] ++ drainQueue sts.queue.length sts.queue
        ++ [Ev.notify]) = true
    rw [checkCalls_append, checkCalls_append]
    simp [checkCalls, stepDepth, depthAfter, h1, h2]
  · rcases drainQueue_check (fun d => d == 0) (fun d _ => d == 1) 1
      (fun _ => rfl) sts.queue.length sts.queue with ⟨h1, h2⟩
    show checkCalls (fun d => d == 0) (fun d _ => d == 1) 0
      ([Ev.lock] ++ drainQueue sts.queue.length sts.queue
        ++ [Ev.unlock, Ev.notify, Ev.joinThread]) = true
    rw [checkCalls_append, checkCalls_append]
    simp [checkCalls, stepDepth, depthAfter, h1, h2]
  · show checkCalls _ _ 0
      ([Ev.lock, Ev.unlock]
        ++ stc.workers.map (fun w => Ev.stopReq w.wid) ++ [Ev.broadcast]
        ++ (thread_pool.clear { stc with workers := [] } order).2
        ++ stc.workers.map (fun w => Ev.joinW w.wid)) = true
    rw [checkCalls_append, checkCalls_append, checkCalls_append,
        checkCalls_append]
    rcases stopReqs_check (fun d => d == 0)
      (fun d t => if t ∈ (stc.delayed.filter
          (fun b => !b.marked)).map Bridge.task then d == 1 else d == 0) 0
      stc.workers with ⟨s1, s2⟩
    rcases joinWs_check (fun d => d == 0)
      (fun d t => if t ∈ (stc.delayed.filter
          (fun b => !b.marked)).map Bridge.task then d == 1 else d == 0)
      (depthAfter 0 (thread_pool.clear { stc with workers := [] } order).2)
      stc.workers with ⟨j1, _⟩
    have hclear2 : checkCalls (fun d => d == 0)
        (fun d t => if t ∈ (stc.delayed.filter
            (fun b => !b.marked)).map Bridge.task then d == 1 else d == 0) 0
        (thread_pool.clear { stc with workers := [] } order).2 = true :=
      hclearGen []
    have e0 : depthAfter 0 [Ev.lock, Ev.unlock] = 0 := rfl
    have b0 : depthAfter 0 [Ev.broadcast] = 0 := rfl
    simp only [depthAfter_append]
    rw [e0, s2, b0, s1, hclear2, j1]
    rfl

theorem callbacks_lock_discipline_witness :
    checkCalls (fun d => d == 0) (fun d _ => d == 0) 0
      (thread_pool.workerIter ⟨[], 0, [4], [], 0⟩ false).2 = true
    ∧ checkCalls (fun d => d == 0)
        (fun d t => if t ∈ (([⟨1, false, 10⟩] : List Bridge).filter
            (fun b => !b.marked)).map Bridge.task then d == 1 else d == 0) 0
        (thread_pool.clear ⟨[], 0, [7], [⟨1, false, 10⟩], 0⟩ []).2 = true :=
  ⟨(callbacks_lock_discipline ⟨[], 0, [4], [], 0⟩ false 0 ⟨[], false⟩
      ⟨[⟨5, 10⟩], false⟩ ⟨[], 0, [7], [⟨1, false, 10⟩], 0⟩ []
      rfl (by decide) (by decide) (by decide)).1,
   (callbacks_lock_discipline ⟨[], 0, [4], [], 0⟩ false 0 ⟨[], false⟩
      ⟨[⟨5, 10⟩], false⟩ ⟨[], 0, [7], [⟨1, false, 10⟩], 0⟩ []
      rfl (by decide) (by decide) (by decide)).2.2.2.2.1⟩
